import Mathlib

/-!
Verification of the comp4321 indexing and retrieval engine.

The development shallowly embeds the Go sources:
* the `Indexer` (identifier tables, forward index, in-memory staging of the
  inverted index, and its flush), from `database/indexer.go`;
* the phrase-retrieval functions `splitToBigrams`, `hasPhrase`, `searchPhrase`
  from `retrieval/phrase.go`.

Machine integers (`uint64` ids, byte-encoded through the bijections
`uint64ToByte`/`byteToUint64`) are modelled as `Nat`; a bolt bucket is an
association list.  The bolt facts that matter here are embedded explicitly:
a bucket's keyspace is shared between plain values and nested sub-buckets,
`Put` on a key that currently holds a nested bucket fails with
`ErrIncompatibleValue` (the indexer discards this error), and `Get` returns
nil for a key that is a nested bucket.

Concurrency (`go` statements plus a `sync.WaitGroup` join barrier) is
modelled by an explicit small-step executor over event schedules, with one
event per task execution; the pre-1.22 Go semantics of `for`-loop variables
(one shared variable per loop, captured by reference by the spawned
closures) is embedded faithfully: spawned tasks read the shared loop
variables at the moment they run.
-/

namespace Comp4321

/-- Association-list lookup: the value stored under a key of a bolt bucket. -/
def lookupA {α β : Type} [DecidableEq α] : List (α × β) → α → Option β
  | [], _ => none
  | (k, v) :: rest, k' => if k' = k then some v else lookupA rest k'

/-- Association-list write (`Put`): overwrite the binding of the key, append if absent. -/
def insertA {α β : Type} [DecidableEq α] : List (α × β) → α → β → List (α × β)
  | [], k, v => [(k, v)]
  | (k', v') :: rest, k, v => if k' = k then (k, v) :: rest else (k', v') :: insertA rest k v

/-- Keys of an association list. -/
def keysA {α β : Type} (l : List (α × β)) : List α := l.map Prod.fst

/-- Writing a presence marker under key `x` of a set-like bucket: a repeated
`Put` overwrites, so the key set gains `x` exactly once. -/
def insertSet (x : Nat) (s : List Nat) : List Nat := if x ∈ s then s else s ++ [x]

/-- Sorted two-pointer intersection, with explicit fuel so that the
definition is structurally recursive (the wrapper `intersect` always supplies
enough fuel, so the fuel never runs out). -/
def intersectF {α : Type} [LinearOrder α] : Nat → List α → List α → List α
  | 0, _, _ => []
  | _ + 1, [], _ => []
  | _ + 1, _ :: _, [] => []
  | f + 1, x :: xs, y :: ys =>
    if x < y then intersectF f xs (y :: ys)
    else if y < x then intersectF f (x :: xs) ys
    else x :: intersectF f xs ys

/-- Modelled from the spec: `intersect`, the sorted two-pointer merge
intersection used by the retrieval engine (its source file is not under
`src/`; the spec describes a linear sorted intersection). -/
def intersect {α : Type} [LinearOrder α] (a b : List α) : List α :=
  intersectF (a.length + b.length) a b

/-! ## Identifier tables (`getId`) -/

/-- One forward/inverse mapping table pair with its bolt sequence counter.
`NextSequence` increments the counter and returns the new value, so the first
allocated id is `1`. -/
structure IdTables where
  fw : List (String × Nat)
  inv : List (Nat × String)
  seq : Nat
deriving DecidableEq

def emptyIdTables : IdTables := ⟨[], [], 0⟩

/-- `getId` from the source: look the text up in the forward map; if absent,
allocate the next sequence number and write both the forward and the inverse
mapping.  (Sequential semantics; the source performs the read and the write
in two separate transactions, whose race §9 of the spec documents.) -/
def getId (text : String) (s : IdTables) : Nat × IdTables :=
  match lookupA s.fw text with
  | some id => (id, s)
  | none => (s.seq + 1, ⟨insertA s.fw text (s.seq + 1), insertA s.inv (s.seq + 1) text, s.seq + 1⟩)

/-- Well-formedness of an id-table pair, true of every state reachable by
`getId` from the empty tables: ids are bounded by the sequence counter, the
inverse table inverts the forward table, and ids are not shared. -/
def idWF (s : IdTables) : Prop :=
  (∀ p ∈ s.fw, p.2 ≤ s.seq) ∧
  (∀ p ∈ s.fw, lookupA s.inv p.2 = some p.1) ∧
  (∀ p ∈ s.fw, ∀ q ∈ s.fw, p.2 = q.2 → p.1 = q.1) ∧
  (∀ q ∈ s.inv, q.1 ≤ s.seq)

/-! ## The store -/

/-- A value in the forward-index table: the table holds per-page sub-buckets
(term frequencies keyed by word id) and, by the overloaded use the design
notes flag, plain values (the page's `maxTf`) under the same keyspace. -/
inductive FwVal where
  | plain (v : Nat)
  | bucket (entries : List (Nat × Nat))
deriving DecidableEq

/-- A parsed document as produced by the external parser (`models.Document`):
uri, term → frequency map (an association list with distinct keys, standing
for a Go map in some iteration order), and the maximal term frequency. -/
structure Document where
  uri : String
  words : List (String × Nat)
  maxTf : Nat
deriving DecidableEq

/-- The persistent store: the url and word id-table pairs, the forward index,
the inverted index (word id → posting sub-bucket key set) and the document
metadata table.  `LoadIndexer` guarantees all tables exist, so the empty
store models a freshly opened (or dropped) database. -/
structure Store where
  urlTab : IdTables
  wordTab : IdTables
  forwardTable : List (Nat × FwVal)
  invertedTable : List (Nat × List Nat)
  pageInfo : List (Nat × Document)
deriving DecidableEq

def emptyStore : Store := ⟨emptyIdTables, emptyIdTables, [], [], []⟩

/-- The in-memory staging structure of the `Indexer`: the temporary inverted
index and the list of staged word ids. -/
structure Staging where
  tempInverted : List (Nat × List Nat)
  wordIdList : List Nat
deriving DecidableEq

def emptyStaging : Staging := ⟨[], []⟩

def getOrCreatePageId (url : String) (s : Store) : Nat × Store :=
  ((getId url s.urlTab).1, { s with urlTab := (getId url s.urlTab).2 })

def getOrCreateWordId (word : String) (s : Store) : Nat × Store :=
  ((getId word s.wordTab).1, { s with wordTab := (getId word s.wordTab).2 })

/-- The critical section of `updateInverted`: create the posting set on first
sight of the word id (appending the id to `wordIdList`), then mark the page
id present.  The `Indexer`'s lock serialises exactly these state changes. -/
def stageInsert (wordId pageId : Nat) (g : Staging) : Staging :=
  match lookupA g.tempInverted wordId with
  | some ps => ⟨insertA g.tempInverted wordId (insertSet pageId ps), g.wordIdList⟩
  | none => ⟨insertA g.tempInverted wordId [pageId], g.wordIdList ++ [wordId]⟩

/-- `updateInverted` from the source: resolve the word id, then stage the
(word id, page id) pair under the lock.  (The `tablename` parameter of the
source is unused there and dropped here.) -/
def updateInverted (word : String) (pageId : Nat) (s : Store) (g : Staging) : Store × Staging :=
  ((getOrCreateWordId word s).2, stageInsert (getOrCreateWordId word s).1 pageId g)

/-- Forward-index write: `CreateBucketIfNotExists(pageId)` then
`Put(wordId, tf)` in the sub-bucket.  If the key holds a plain value, bolt's
`CreateBucketIfNotExists` fails with `ErrIncompatibleValue`; the source
discards the error, so that path is a no-op here. -/
def fwPut (tab : List (Nat × FwVal)) (pageId wordId tf : Nat) : List (Nat × FwVal) :=
  match lookupA tab pageId with
  | some (FwVal.bucket b) => insertA tab pageId (FwVal.bucket (insertA b wordId tf))
  | some (FwVal.plain _) => tab
  | none => insertA tab pageId (FwVal.bucket [(wordId, tf)])

/-- `updateForward` from the source. -/
def updateForward (word : String) (pageId : Nat) (tf : Nat) (s : Store) : Store :=
  { (getOrCreateWordId word s).2 with
    forwardTable := (fwPut ((getOrCreateWordId word s).2).forwardTable pageId
      (getOrCreateWordId word s).1 tf) }

/-- `setMaxTf` from the source: a plain `Put` of `maxTf` directly under the
page id key of the forward-index table.  Bolt's `Put` fails with
`ErrIncompatibleValue` if that key currently holds a nested bucket; the
source discards the error, so that path is a no-op. -/
def setMaxTf (pageId maxTf : Nat) (s : Store) : Store :=
  match lookupA s.forwardTable pageId with
  | some (FwVal.bucket _) => s
  | _ => { s with forwardTable := insertA s.forwardTable pageId (FwVal.plain maxTf) }

/-- `getMaxTf` from the source: a plain `Get` of the page id key of the
forward-index table.  Bolt's `Get` returns nil when the key does not exist
or holds a nested bucket; `none` models the nil result (which the source
then feeds to `byteToInt`). -/
def getMaxTf (s : Store) (pageId : Nat) : Option Nat :=
  match lookupA s.forwardTable pageId with
  | some (FwVal.plain v) => some v
  | _ => none

/-- `ContainsUrl` from the source. -/
def ContainsUrl (url : String) (s : Store) : Bool :=
  (lookupA s.urlTab.fw url).isSome

/-- The final writes of `UpdateOrAddPage`, issued after the join barrier:
persist `maxTf`, then the serialized document metadata. -/
def finishPage (p : Document) (pid : Nat) (s : Store) : Store :=
  { setMaxTf pid p.maxTf s with
    pageInfo := insertA (setMaxTf pid p.maxTf s).pageInfo pid p }

/-- The combined effect of one word's two tasks of `UpdateOrAddPage`
(staging write and forward write), as they execute in a race-free schedule
where each spawned pair runs before the loop advances. -/
def ingestStep (pageId : Nat) (sg : Store × Staging) (wt : String × Nat) : Store × Staging :=
  (updateForward wt.1 pageId wt.2 (updateInverted wt.1 pageId sg.1 sg.2).1,
   (updateInverted wt.1 pageId sg.1 sg.2).2)

/-- `UpdateOrAddPage` from the source, in its race-free sequential reading:
resolve the page id, perform both writes for every (term, tf) pair, and
after the join barrier persist `maxTf` and the metadata record. -/
def UpdateOrAddPage (p : Document) (s : Store) (g : Staging) : Store × Staging :=
  (finishPage p (getOrCreatePageId p.uri s).1
    (p.words.foldl (ingestStep (getOrCreatePageId p.uri s).1) ((getOrCreatePageId p.uri s).2, g)).1,
   (p.words.foldl (ingestStep (getOrCreatePageId p.uri s).1) ((getOrCreatePageId p.uri s).2, g)).2)

/-- The body of one flush task: `CreateBucketIfNotExists(bucketKey)` on the
inverted table, then `Put` every page id of `tempInverted[contentId]` into
that sub-bucket.  In the source the bucket key is the per-iteration copy
`idBytes` while the posting set is read through the shared loop variable
`id`; the two arguments keep that distinction. -/
def flushTaskRun (bucketKey contentId : Nat) (g : Staging) (tab : List (Nat × List Nat)) :
    List (Nat × List Nat) :=
  insertA tab bucketKey
    (((lookupA g.tempInverted contentId).getD []).foldl (fun acc d => insertSet d acc)
      ((lookupA tab bucketKey).getD []))

/-- `FlushInverted` from the source, in its race-free sequential reading
(each spawned task runs before the loop advances, so the shared loop
variable equals the task's own word id): sort the staged word ids ascending
(the sort mutates the `Indexer`'s slice in place), then write every staged
posting set into its word's sub-bucket. -/
def FlushInverted (s : Store) (g : Staging) : Store × Staging :=
  ({ s with invertedTable := ((List.insertionSort (· ≤ ·) g.wordIdList).foldl
      (fun tab wid => flushTaskRun wid wid g tab) s.invertedTable) },
   { g with wordIdList := List.insertionSort (· ≤ ·) g.wordIdList })

/-- One ingestion round: `UpdateOrAddPage` followed by `FlushInverted`. -/
def ingestAndFlush (doc : Document) (sg : Store × Staging) : Store × Staging :=
  FlushInverted (UpdateOrAddPage doc sg.1 sg.2).1 (UpdateOrAddPage doc sg.1 sg.2).2

/-- Well-formedness of the staging structure: each staged word id occurs at
most once in `wordIdList`, and the elements of `wordIdList` are exactly the
keys of `tempInverted`. -/
def StagingWF (g : Staging) : Prop :=
  g.wordIdList.Nodup ∧
  (∀ w ∈ g.wordIdList, (lookupA g.tempInverted w).isSome = true) ∧
  (∀ e ∈ g.tempInverted, e.1 ∈ g.wordIdList)

/-- The (word id, page id) pair is staged. -/
def stagedIn (g : Staging) (wordId pageId : Nat) : Prop :=
  ∃ ps, lookupA g.tempInverted wordId = some ps ∧ pageId ∈ ps

/-- Every staged pair has been written to its word's persisted posting list. -/
def Flushed (tab : List (Nat × List Nat)) (ti : List (Nat × List Nat)) : Prop :=
  ∀ wid ps, lookupA ti wid = some ps →
    ∃ b, lookupA tab wid = some b ∧ ∀ d ∈ ps, d ∈ b

/-! ## Scheduled executor for `UpdateOrAddPage`

The loop of `UpdateOrAddPage` spawns, per (term, tf) pair, one staging task
and one forward task; both closures capture the shared loop variables
`word` and `tf` by reference (pre-1.22 Go `for` semantics), and the page id
(bound outside the loop) by value.  `wg.Wait()` releases only once all
`2 * len(words)` tasks have called `Done()`.  An event is one atomic
execution of a task body, one loop iteration (which overwrites the shared
variables and spawns two tasks) or the post-barrier writes. -/

inductive UEvent where
  | spawn : UEvent
  | runInv : UEvent
  | runFwd : UEvent
  | finish : UEvent
deriving DecidableEq

structure UState where
  store : Store
  staging : Staging
  pid : Nat
  sharedWord : String
  sharedTf : Nat
  loopIdx : Nat
  pendInv : Nat
  pendFwd : Nat
  finished : Bool
  doneInv : Nat
  doneFwd : Nat
deriving DecidableEq

/-- One scheduler step.  A task reads the shared loop variables at the
moment it runs; the barrier event is enabled only when the loop is done and
no spawned task is pending. -/
def ustep (doc : Document) (e : UEvent) (st : UState) : Option UState :=
  match e with
  | UEvent.spawn =>
    match doc.words[st.loopIdx]? with
    | some wt => some { st with
        sharedWord := wt.1,
        sharedTf := wt.2,
        loopIdx := st.loopIdx + 1,
        pendInv := st.pendInv + 1,
        pendFwd := st.pendFwd + 1 }
    | none => none
  | UEvent.runInv =>
    match st.pendInv with
    | 0 => none
    | k + 1 => some { st with
        store := (updateInverted st.sharedWord st.pid st.store st.staging).1,
        staging := (updateInverted st.sharedWord st.pid st.store st.staging).2,
        pendInv := k,
        doneInv := st.doneInv + 1 }
  | UEvent.runFwd =>
    match st.pendFwd with
    | 0 => none
    | k + 1 => some { st with
        store := updateForward st.sharedWord st.pid st.sharedTf st.store,
        pendFwd := k,
        doneFwd := st.doneFwd + 1 }
  | UEvent.finish =>
    if st.finished = false ∧ st.loopIdx = doc.words.length ∧ st.pendInv = 0 ∧ st.pendFwd = 0 then
      some { st with store := finishPage doc st.pid st.store, finished := true }
    else none

def initU (doc : Document) (s : Store) (g : Staging) : UState :=
  ⟨(getOrCreatePageId doc.uri s).2, g, (getOrCreatePageId doc.uri s).1,
   "", 0, 0, 0, 0, false, 0, 0⟩

def execFrom (doc : Document) (st : UState) (evs : List UEvent) : Option UState :=
  evs.foldl (fun o e => o.bind (ustep doc e)) (some st)

/-- `UpdateOrAddPage` under an explicit schedule of events. -/
def UpdateOrAddPageExec (doc : Document) (s : Store) (g : Staging) (evs : List UEvent) :
    Option UState :=
  execFrom doc (initU doc s g) evs

/-- Counting invariant of reachable scheduler states: the `WaitGroup`
counter semantics.  Pending plus completed tasks of each kind equal the
spawned iterations, the loop index is bounded, and a finished state has an
empty counter and a completed loop. -/
def UInv (doc : Document) (st : UState) : Prop :=
  st.pendInv + st.doneInv = st.loopIdx ∧
  st.pendFwd + st.doneFwd = st.loopIdx ∧
  st.loopIdx ≤ doc.words.length ∧
  (st.finished = true → st.pendInv = 0 ∧ st.pendFwd = 0 ∧ st.loopIdx = doc.words.length)

/-! ## Scheduled executor for `FlushInverted`

The flush loop copies the word id into the per-iteration variable `idBytes`
(captured by value as the sub-bucket key) but the task body reads the
posting set through the shared loop variable `id`.  A `run k` event executes
the `k`-th pending task with the current value of the shared variable. -/

inductive FEvent where
  | spawn : FEvent
  | run : Nat → FEvent
deriving DecidableEq

structure FState where
  invertedTable : List (Nat × List Nat)
  sharedId : Nat
  loopIdx : Nat
  pending : List Nat
deriving DecidableEq

def fstep (sorted : List Nat) (g : Staging) (e : FEvent) (st : FState) : Option FState :=
  match e with
  | FEvent.spawn =>
    match sorted[st.loopIdx]? with
    | some wid => some { st with
        sharedId := wid,
        loopIdx := st.loopIdx + 1,
        pending := st.pending ++ [wid] }
    | none => none
  | FEvent.run k =>
    match st.pending[k]? with
    | some bucketKey => some { st with
        invertedTable := flushTaskRun bucketKey st.sharedId g st.invertedTable,
        pending := st.pending.eraseIdx k }
    | none => none

/-- `FlushInverted` under an explicit schedule; accepts (returning the final
inverted table) only if the loop completed and the barrier released. -/
def FlushInvertedExec (s : Store) (g : Staging) (evs : List FEvent) :
    Option (List (Nat × List Nat)) :=
  match evs.foldl
      (fun o e => o.bind (fstep (List.insertionSort (· ≤ ·) g.wordIdList) g e))
      (some ⟨s.invertedTable, 0, 0, []⟩) with
  | some st =>
    if st.loopIdx = (List.insertionSort (· ≤ ·) g.wordIdList).length ∧ st.pending = [] then
      some st.invertedTable
    else none
  | none => none

/-! ## Retrieval engine -/

/-- An ordered pair of adjacent query terms (`Bigram` from the source). -/
structure Bigram where
  n1 : String
  n2 : String
deriving DecidableEq

/-- The read-only store interface the retrieval engine consumes.
Modelled from the spec: `postings` is the posting list of a term (the page
ids whose forward entry contains it), `GetPositionIndices` the ascending
position list of a (page, term) pair; both are supplied by the store's read
interface, whose source file is not under `src/`. -/
structure Viewer where
  postings : String → List Nat
  GetPositionIndices : Nat → String → List Int

/-- `splitToBigrams` from the source: all adjacent pairs, in query order. -/
def splitToBigrams : List String → List Bigram
  | q1 :: q2 :: rest => ⟨q1, q2⟩ :: splitToBigrams (q2 :: rest)
  | _ => []

/-- Modelled from the spec: the pairwise intersection loop of
`booleanFilter`, short-circuiting to empty as soon as an intermediate
result is empty. -/
def interAll (acc : List Nat) : List (List Nat) → List Nat
  | [] => acc
  | l :: rest => if acc.isEmpty then [] else interAll (intersect acc l) rest

/-- Modelled from the spec: `booleanFilter` (its source file is not under
`src/`): fetch the posting list per term, sort the lists ascending by size,
intersect pairwise with short-circuit; a single-term query returns that
term's posting list unchanged, an empty query the empty sequence. -/
def booleanFilter (terms : List String) (v : Viewer) : List Nat :=
  match List.insertionSort (fun a b => a.length ≤ b.length) (terms.map v.postings) with
  | [] => []
  | l :: rest => interAll l rest

/-- `hasPhrase` from the source: candidates are `booleanFilter` of the two
terms; keep those whose first-term position list intersects the second-term
position list with every position decremented by one.  Positions are the
store's integer offsets, so the decrement is integer subtraction. -/
def hasPhrase (bigram : Bigram) (v : Viewer) : List Nat :=
  (booleanFilter [bigram.n1, bigram.n2] v).filter fun id =>
    !(intersect (v.GetPositionIndices id bigram.n1)
        ((v.GetPositionIndices id bigram.n2).map (fun p => p - 1))).isEmpty

/-- `searchPhrase` from the source: queries of length at most one degrade to
`booleanFilter`; otherwise compute `hasPhrase` per bigram, sort the result
sets ascending by size, and intersect them pairwise in that order. -/
def searchPhrase (query : List String) (v : Viewer) : List Nat :=
  if query.length ≤ 1 then booleanFilter query v
  else
    match List.insertionSort (fun a b => a.length ≤ b.length)
        ((splitToBigrams query).map (fun bg => hasPhrase bg v)) with
    | [] => []
    | l :: rest => rest.foldl (fun acc d => intersect acc d) l

/-! ## Concrete inputs used by witnesses and failing-input evaluations -/

/-- A one-term document. -/
def docA : Document := ⟨"u1", [("a", 2)], 2⟩

/-- A two-term document. -/
def docAB : Document := ⟨"u1", [("a", 1), ("b", 2)], 2⟩

/-- A staging state with two staged words: word 1 saw page 10, word 2 saw
page 20. -/
def gTwo : Staging := ⟨[(1, [10]), (2, [20])], [1, 2]⟩

/-- A tiny viewer: page 1 contains "a" at offset 0 and "b" at offset 1. -/
def vW : Viewer :=
  ⟨fun t => if t = "a" then [1] else if t = "b" then [1] else [],
   fun p t =>
     if p = 1 ∧ t = "a" then [0] else if p = 1 ∧ t = "b" then [1] else []⟩

/-! ## Helper lemmas: association lists -/

theorem lookupA_insertA_self {α β : Type} [DecidableEq α] (l : List (α × β)) (k : α) (v : β) :
    lookupA (insertA l k v) k = some v := by
  induction l with
  | nil => simp [insertA, lookupA]
  | cons p t ih =>
    obtain ⟨a, b⟩ := p
    by_cases h : a = k
    · subst h; simp [insertA, lookupA]
    · simp only [insertA, if_neg h, lookupA]
      rw [if_neg (Ne.symm h), ih]

theorem lookupA_insertA_ne {α β : Type} [DecidableEq α] (l : List (α × β)) (k k' : α) (v : β)
    (h : k' ≠ k) : lookupA (insertA l k v) k' = lookupA l k' := by
  induction l with
  | nil => simp [insertA, lookupA, h]
  | cons p t ih =>
    obtain ⟨a, b⟩ := p
    by_cases h2 : a = k
    · subst h2; simp [insertA, lookupA, h]
    · simp only [insertA, if_neg h2, lookupA, ih]

theorem insertA_eq_of_lookup {α β : Type} [DecidableEq α] {l : List (α × β)} {k : α} {v : β}
    (h : lookupA l k = some v) : insertA l k v = l := by
  induction l with
  | nil => simp [lookupA] at h
  | cons p t ih =>
    obtain ⟨a, b⟩ := p
    by_cases h2 : k = a
    · subst h2
      simp [lookupA] at h
      subst h
      simp [insertA]
    · simp only [lookupA, if_neg h2] at h
      simp only [insertA, if_neg (Ne.symm h2)]
      rw [ih h]

theorem lookupA_eq_none {α β : Type} [DecidableEq α] {l : List (α × β)} {k : α} :
    lookupA l k = none ↔ k ∉ keysA l := by
  induction l with
  | nil => simp [lookupA, keysA]
  | cons p t ih =>
    obtain ⟨a, b⟩ := p
    by_cases h2 : k = a
    · subst h2; simp [lookupA, keysA]
    · simp [lookupA, if_neg h2, keysA, h2] at ih ⊢
      exact ih

theorem lookupA_mem {α β : Type} [DecidableEq α] {l : List (α × β)} {k : α} {v : β}
    (h : lookupA l k = some v) : (k, v) ∈ l := by
  induction l with
  | nil => simp [lookupA] at h
  | cons p t ih =>
    obtain ⟨a, b⟩ := p
    by_cases h2 : k = a
    · subst h2
      simp [lookupA] at h
      subst h
      simp
    · simp only [lookupA, if_neg h2] at h
      exact List.mem_cons_of_mem _ (ih h)

theorem insertA_of_not_mem {α β : Type} [DecidableEq α] {l : List (α × β)} {k : α} (v : β)
    (h : k ∉ keysA l) : insertA l k v = l ++ [(k, v)] := by
  induction l with
  | nil => simp [insertA]
  | cons p t ih =>
    obtain ⟨a, b⟩ := p
    simp only [keysA, List.map_cons, List.mem_cons] at h
    push_neg at h
    simp only [insertA, if_neg (Ne.symm h.1), List.cons_append, List.cons.injEq, true_and]
    exact ih (by simpa [keysA] using h.2)

theorem lookupA_append_left {α β : Type} [DecidableEq α] {l₁ : List (α × β)}
    (l₂ : List (α × β)) {k : α} {v : β} (h : lookupA l₁ k = some v) :
    lookupA (l₁ ++ l₂) k = some v := by
  induction l₁ with
  | nil => simp [lookupA] at h
  | cons p t ih =>
    obtain ⟨a, b⟩ := p
    by_cases h2 : k = a
    · subst h2
      simp [lookupA] at h
      subst h
      simp [lookupA]
    · simp only [List.cons_append, lookupA, if_neg h2] at h ⊢
      exact ih h

theorem lookupA_append_right {α β : Type} [DecidableEq α] {l₁ : List (α × β)}
    (l₂ : List (α × β)) {k : α} (h : k ∉ keysA l₁) :
    lookupA (l₁ ++ l₂) k = lookupA l₂ k := by
  induction l₁ with
  | nil => simp
  | cons p t ih =>
    obtain ⟨a, b⟩ := p
    simp only [keysA, List.map_cons, List.mem_cons] at h
    push_neg at h
    simp only [List.cons_append, lookupA, if_neg h.1]
    exact ih (by simpa [keysA] using h.2)

theorem mem_insertA_sub {α β : Type} [DecidableEq α] {l : List (α × β)} {k : α} {v : β}
    {p : α × β} (h : p ∈ insertA l k v) : p = (k, v) ∨ p ∈ l := by
  induction l with
  | nil => simpa [insertA] using h
  | cons q t ih =>
    obtain ⟨a, b⟩ := q
    by_cases h2 : a = k
    · subst h2
      simp [insertA] at h
      rcases h with hh | hh
      · exact Or.inl (by simp [hh])
      · exact Or.inr (List.mem_cons_of_mem _ hh)
    · simp only [insertA, if_neg h2, List.mem_cons] at h
      rcases h with hh | hh
      · exact Or.inr (List.mem_cons.mpr (Or.inl hh))
      · exact (ih hh).imp id (List.mem_cons_of_mem _)

/-! ## Helper lemmas: set-like buckets -/

theorem mem_insertSet_self (x : Nat) (s : List Nat) : x ∈ insertSet x s := by
  by_cases h : x ∈ s <;> simp [insertSet, h]

theorem mem_insertSet_of_mem {y : Nat} {s : List Nat} (x : Nat) (h : y ∈ s) :
    y ∈ insertSet x s := by
  by_cases h2 : x ∈ s <;> simp [insertSet, h2, h]

theorem insertSet_eq_of_mem {x : Nat} {s : List Nat} (h : x ∈ s) : insertSet x s = s := by
  simp [insertSet, h]

theorem mem_foldl_insertSet_of_mem {y : Nat} (ps : List Nat) {acc : List Nat} (h : y ∈ acc) :
    y ∈ ps.foldl (fun a d => insertSet d a) acc := by
  induction ps generalizing acc with
  | nil => simpa using h
  | cons d t ih => exact ih (mem_insertSet_of_mem d h)

theorem mem_foldl_insertSet_self {d : Nat} {ps : List Nat} (acc : List Nat) (h : d ∈ ps) :
    d ∈ ps.foldl (fun a x => insertSet x a) acc := by
  induction ps generalizing acc with
  | nil => simp at h
  | cons x t ih =>
    rcases List.mem_cons.mp h with h | h
    · subst h
      exact mem_foldl_insertSet_of_mem t (mem_insertSet_self d acc)
    · exact ih _ h

theorem foldl_insertSet_eq_of_subset {ps acc : List Nat} (h : ∀ d ∈ ps, d ∈ acc) :
    ps.foldl (fun a d => insertSet d a) acc = acc := by
  induction ps with
  | nil => rfl
  | cons d t ih =>
    have hd : d ∈ acc := h d (by simp)
    simp only [List.foldl_cons, insertSet_eq_of_mem hd]
    exact ih (fun x hx => h x (by simp [hx]))

/-! ## Helper lemmas: sorted two-pointer intersection -/

theorem mem_intersectF {α : Type} [LinearOrder α] :
    ∀ (f : Nat) (a b : List α), a.length + b.length ≤ f →
      a.Sorted (· < ·) → b.Sorted (· < ·) →
      ∀ x, x ∈ intersectF f a b ↔ x ∈ a ∧ x ∈ b := by
  intro f
  induction f with
  | zero =>
    intro a b hf _ _ x
    have ha0 : a = [] := List.length_eq_zero.mp (by omega)
    have hb0 : b = [] := List.length_eq_zero.mp (by omega)
    subst ha0; subst hb0
    simp [intersectF]
  | succ f ih =>
    intro a b hf ha hb x
    cases a with
    | nil => simp [intersectF]
    | cons xa ta =>
      cases b with
      | nil => simp [intersectF]
      | cons yb tb =>
        obtain ⟨hxa, hta⟩ := List.sorted_cons.mp ha
        obtain ⟨hyb, htb⟩ := List.sorted_cons.mp hb
        simp only [List.length_cons] at hf
        rcases lt_trichotomy xa yb with hlt | heq | hgt
        · simp only [intersectF, if_pos hlt]
          rw [ih ta (yb :: tb) (by simp; omega) hta hb x]
          constructor
          · rintro ⟨h1, h2⟩
            exact ⟨List.mem_cons_of_mem _ h1, h2⟩
          · rintro ⟨h1, h2⟩
            rcases List.mem_cons.mp h1 with h1 | h1
            · subst h1
              rcases List.mem_cons.mp h2 with h2 | h2
              · exact absurd h2 (ne_of_lt hlt)
              · exact absurd (hyb _ h2) (lt_asymm hlt)
            · exact ⟨h1, h2⟩
        · subst heq
          simp only [intersectF, if_neg (lt_irrefl xa)]
          simp only [List.mem_cons, ih ta tb (by omega) hta htb x]
          constructor
          · rintro (h1 | ⟨h1, h2⟩)
            · exact ⟨Or.inl h1, Or.inl h1⟩
            · exact ⟨Or.inr h1, Or.inr h2⟩
          · rintro ⟨h1 | h1, h2 | h2⟩
            · exact Or.inl h1
            · exact Or.inl h1
            · subst h2
              exact absurd (hxa _ h1) (lt_irrefl x)
            · exact Or.inr ⟨h1, h2⟩
        · simp only [intersectF, if_neg (lt_asymm hgt), if_pos hgt]
          rw [ih (xa :: ta) tb (by simp; omega) ha htb x]
          constructor
          · rintro ⟨h1, h2⟩
            exact ⟨h1, List.mem_cons_of_mem _ h2⟩
          · rintro ⟨h1, h2⟩
            rcases List.mem_cons.mp h2 with h2 | h2
            · subst h2
              rcases List.mem_cons.mp h1 with h1 | h1
              · exact absurd h1 (ne_of_lt hgt)
              · exact absurd (hxa _ h1) (lt_asymm hgt)
            · exact ⟨h1, h2⟩

theorem sorted_intersectF {α : Type} [LinearOrder α] :
    ∀ (f : Nat) (a b : List α), a.length + b.length ≤ f →
      a.Sorted (· < ·) → b.Sorted (· < ·) →
      (intersectF f a b).Sorted (· < ·) := by
  intro f
  induction f with
  | zero => intro a b _ _ _; simp [intersectF]
  | succ f ih =>
    intro a b hf ha hb
    cases a with
    | nil => simp [intersectF]
    | cons xa ta =>
      cases b with
      | nil => simp [intersectF]
      | cons yb tb =>
        obtain ⟨hxa, hta⟩ := List.sorted_cons.mp ha
        obtain ⟨hyb, htb⟩ := List.sorted_cons.mp hb
        simp only [List.length_cons] at hf
        rcases lt_trichotomy xa yb with hlt | heq | hgt
        · simp only [intersectF, if_pos hlt]
          exact ih ta (yb :: tb) (by simp; omega) hta hb
        · subst heq
          simp only [intersectF, if_neg (lt_irrefl xa)]
          refine List.sorted_cons.mpr ⟨?_, ih ta tb (by omega) hta htb⟩
          intro z hz
          have := (mem_intersectF f ta tb (by omega) hta htb z).mp hz
          exact hxa _ this.1
        · simp only [intersectF, if_neg (lt_asymm hgt), if_pos hgt]
          exact ih (xa :: ta) tb (by simp; omega) ha htb

theorem mem_intersect {α : Type} [LinearOrder α] {a b : List α}
    (ha : a.Sorted (· < ·)) (hb : b.Sorted (· < ·)) (x : α) :
    x ∈ intersect a b ↔ x ∈ a ∧ x ∈ b :=
  mem_intersectF (a.length + b.length) a b le_rfl ha hb x

theorem sorted_intersect {α : Type} [LinearOrder α] {a b : List α}
    (ha : a.Sorted (· < ·)) (hb : b.Sorted (· < ·)) :
    (intersect a b).Sorted (· < ·) :=
  sorted_intersectF (a.length + b.length) a b le_rfl ha hb

/-! ## Helper lemmas: retrieval -/

theorem mem_interAll (ls : List (List Nat)) (acc : List Nat) (hacc : acc.Sorted (· < ·))
    (hls : ∀ l ∈ ls, l.Sorted (· < ·)) (x : Nat) :
    x ∈ interAll acc ls ↔ x ∈ acc ∧ ∀ l ∈ ls, x ∈ l := by
  induction ls generalizing acc with
  | nil => simp [interAll]
  | cons l t ih =>
    cases acc with
    | nil => simp [interAll]
    | cons a as =>
      simp only [interAll, List.isEmpty_cons, Bool.false_eq_true, if_false]
      have hl : l.Sorted (· < ·) := hls l (by simp)
      rw [ih (intersect (a :: as) l) (sorted_intersect hacc hl)
        (fun l' hl' => hls l' (by simp [hl'])),
        mem_intersect hacc hl]
      simp [List.forall_mem_cons, and_assoc]

theorem sorted_interAll (ls : List (List Nat)) (acc : List Nat) (hacc : acc.Sorted (· < ·))
    (hls : ∀ l ∈ ls, l.Sorted (· < ·)) : (interAll acc ls).Sorted (· < ·) := by
  induction ls generalizing acc with
  | nil => exact hacc
  | cons l t ih =>
    cases acc with
    | nil => simp [interAll]
    | cons a as =>
      simp only [interAll, List.isEmpty_cons, Bool.false_eq_true, if_false]
      exact ih (intersect (a :: as) l) (sorted_intersect hacc (hls l (by simp)))
        (fun l' hl' => hls l' (by simp [hl']))

theorem sorted_of_mem_sortedLists {v : Viewer} {terms : List String}
    (hpost : ∀ t, (v.postings t).Sorted (· < ·)) {l : List Nat}
    (hl : l ∈ List.insertionSort (fun a b => a.length ≤ b.length) (terms.map v.postings)) :
    l.Sorted (· < ·) := by
  have hmem : l ∈ terms.map v.postings :=
    (List.perm_insertionSort (fun a b => a.length ≤ b.length) (terms.map v.postings)).subset hl
  obtain ⟨t, _, rfl⟩ := List.mem_map.mp hmem
  exact hpost t

theorem mem_booleanFilter (terms : List String) (v : Viewer)
    (hpost : ∀ t, (v.postings t).Sorted (· < ·)) (x : Nat) :
    x ∈ booleanFilter terms v ↔ terms ≠ [] ∧ ∀ t ∈ terms, x ∈ v.postings t := by
  unfold booleanFilter
  cases hs : List.insertionSort (fun a b => a.length ≤ b.length) (terms.map v.postings) with
  | nil =>
    have hp := List.perm_insertionSort (fun a b : List Nat => a.length ≤ b.length)
      (terms.map v.postings)
    rw [hs] at hp
    have hmap : terms.map v.postings = [] := hp.symm.eq_nil
    have ht : terms = [] := List.map_eq_nil_iff.mp hmap
    subst ht
    simp
  | cons l rest =>
    have hp := List.perm_insertionSort (fun a b : List Nat => a.length ≤ b.length)
      (terms.map v.postings)
    rw [hs] at hp
    have hsorted : ∀ l' ∈ l :: rest, l'.Sorted (· < ·) := by
      intro l' hl'
      exact sorted_of_mem_sortedLists hpost (hs ▸ hl')
    rw [mem_interAll rest l (hsorted l (by simp)) (fun l' hl' => hsorted l' (by simp [hl'])) x]
    constructor
    · rintro ⟨h1, h2⟩
      refine ⟨?_, ?_⟩
      · intro hterms
        subst hterms
        simp only [List.map_nil] at hp
        exact absurd hp.eq_nil (by simp)
      · intro t ht
        have hmem : v.postings t ∈ l :: rest := hp.mem_iff.mpr (List.mem_map_of_mem _ ht)
        rcases List.mem_cons.mp hmem with hmem | hmem
        · rw [← hmem] at h1; exact h1
        · exact h2 _ hmem
    · rintro ⟨_, hall⟩
      have hof : ∀ l' ∈ l :: rest, x ∈ l' := by
        intro l' hl'
        have hmem : l' ∈ terms.map v.postings := hp.subset hl'
        obtain ⟨t, ht, rfl⟩ := List.mem_map.mp hmem
        exact hall t ht
      exact ⟨hof l (by simp), fun l' hl' => hof l' (by simp [hl'])⟩

theorem sorted_booleanFilter (terms : List String) (v : Viewer)
    (hpost : ∀ t, (v.postings t).Sorted (· < ·)) :
    (booleanFilter terms v).Sorted (· < ·) := by
  unfold booleanFilter
  cases hs : List.insertionSort (fun a b => a.length ≤ b.length) (terms.map v.postings) with
  | nil => simp
  | cons l rest =>
    have hsorted : ∀ l' ∈ l :: rest, l'.Sorted (· < ·) := by
      intro l' hl'
      exact sorted_of_mem_sortedLists hpost (hs ▸ hl')
    exact sorted_interAll rest l (hsorted l (by simp)) (fun l' hl' => hsorted l' (by simp [hl']))

theorem sorted_hasPhrase (bg : Bigram) (v : Viewer)
    (hpost : ∀ t, (v.postings t).Sorted (· < ·)) :
    (hasPhrase bg v).Sorted (· < ·) :=
  List.Pairwise.sublist (List.filter_sublist _) (sorted_booleanFilter [bg.n1, bg.n2] v hpost)

theorem sorted_map_sub_one {l : List Int} (h : l.Sorted (· < ·)) :
    (l.map (fun p => p - 1)).Sorted (· < ·) :=
  List.Pairwise.map _ (fun _ _ hab => by omega) h

theorem mem_foldl_intersect (ls : List (List Nat)) (acc : List Nat)
    (hacc : acc.Sorted (· < ·)) (hls : ∀ l ∈ ls, l.Sorted (· < ·)) (x : Nat) :
    x ∈ ls.foldl (fun a d => intersect a d) acc ↔ x ∈ acc ∧ ∀ l ∈ ls, x ∈ l := by
  induction ls generalizing acc with
  | nil => simp
  | cons l t ih =>
    have hl : l.Sorted (· < ·) := hls l (by simp)
    simp only [List.foldl_cons]
    rw [ih (intersect acc l) (sorted_intersect hacc hl) (fun l' hl' => hls l' (by simp [hl'])),
      mem_intersect hacc hl]
    simp [List.forall_mem_cons, and_assoc]

theorem splitToBigrams_eq_zip (q : List String) :
    splitToBigrams q = (q.zip q.tail).map (fun w => ⟨w.1, w.2⟩) := by
  induction q with
  | nil => rfl
  | cons a t ih =>
    cases t with
    | nil => rfl
    | cons b r => simp [splitToBigrams, ih]

theorem length_splitToBigrams (q : List String) :
    (splitToBigrams q).length = q.length - 1 := by
  rw [splitToBigrams_eq_zip]
  simp [List.length_zip]

/-! ## Claims C6, C7, C8 -/

/-- Claim C6: `hasPhrase(bigram)` returns exactly those page ids of
`booleanFilter([bigram.first, bigram.second])` for which the position list
of the first term and the position list of the second term with every
position decremented by one share at least one common value; candidates
with an empty intersection are excluded.  (Position lists are ascending by
the data-model invariant, which the two sortedness hypotheses state.) -/
theorem hasPhrase_correct (bg : Bigram) (v : Viewer) (p : Nat)
    (h1 : (v.GetPositionIndices p bg.n1).Sorted (· < ·))
    (h2 : (v.GetPositionIndices p bg.n2).Sorted (· < ·)) :
    p ∈ hasPhrase bg v ↔
      p ∈ booleanFilter [bg.n1, bg.n2] v ∧
      ∃ x, x ∈ v.GetPositionIndices p bg.n1 ∧
        x ∈ (v.GetPositionIndices p bg.n2).map (fun q => q - 1) := by
  have h2' := sorted_map_sub_one h2
  unfold hasPhrase
  rw [List.mem_filter]
  constructor
  · rintro ⟨hmem, hpred⟩
    refine ⟨hmem, ?_⟩
    have hne : intersect (v.GetPositionIndices p bg.n1)
        ((v.GetPositionIndices p bg.n2).map (fun q => q - 1)) ≠ [] := by
      intro h0
      rw [h0] at hpred
      simp at hpred
    obtain ⟨x, hx⟩ := List.exists_mem_of_ne_nil _ hne
    rw [mem_intersect h1 h2' x] at hx
    exact ⟨x, hx.1, hx.2⟩
  · rintro ⟨hmem, x, hx1, hx2⟩
    refine ⟨hmem, ?_⟩
    have hx : x ∈ intersect (v.GetPositionIndices p bg.n1)
        ((v.GetPositionIndices p bg.n2).map (fun q => q - 1)) :=
      (mem_intersect h1 h2' x).mpr ⟨hx1, hx2⟩
    have hne := List.ne_nil_of_mem hx
    rcases hI : intersect (v.GetPositionIndices p bg.n1)
        ((v.GetPositionIndices p bg.n2).map (fun q => q - 1)) with _ | ⟨y, ys⟩
    · exact absurd hI hne
    · simp

/-- Witness for C6 at a concrete bigram and viewer. -/
theorem hasPhrase_correct_witness :
    1 ∈ hasPhrase ⟨"a", "b"⟩ vW ↔
      1 ∈ booleanFilter ["a", "b"] vW ∧
      ∃ x, x ∈ vW.GetPositionIndices 1 "a" ∧
        x ∈ (vW.GetPositionIndices 1 "b").map (fun q => q - 1) :=
  hasPhrase_correct ⟨"a", "b"⟩ vW 1 (by decide) (by decide)

/-- Claim C7: for a query of `n ≥ 2` terms, `searchPhrase` splits the query
into exactly the `n-1` adjacent bigrams in query order, computes `hasPhrase`
for every bigram, sorts the per-bigram result sets ascending by size and
intersects them pairwise in that order, so its result contains exactly the
page ids belonging to every bigram's `hasPhrase` set. -/
theorem searchPhrase_correct (query : List String) (v : Viewer) (p : Nat)
    (hn : 2 ≤ query.length)
    (hpost : ∀ t, (v.postings t).Sorted (· < ·)) :
    (splitToBigrams query).length = query.length - 1 ∧
    splitToBigrams query = (query.zip query.tail).map (fun w => ⟨w.1, w.2⟩) ∧
    (p ∈ searchPhrase query v ↔ ∀ bg ∈ splitToBigrams query, p ∈ hasPhrase bg v) := by
  refine ⟨length_splitToBigrams query, splitToBigrams_eq_zip query, ?_⟩
  unfold searchPhrase
  rw [if_neg (by omega)]
  split
  · rename_i hs
    exfalso
    have hp := List.perm_insertionSort (fun a b : List Nat => a.length ≤ b.length)
      ((splitToBigrams query).map (fun bg => hasPhrase bg v))
    rw [hs] at hp
    have hmap := hp.symm.eq_nil
    have hnil := List.map_eq_nil_iff.mp hmap
    have hlen := length_splitToBigrams query
    rw [hnil] at hlen
    simp at hlen
    omega
  · rename_i l rest hs
    have hp := List.perm_insertionSort (fun a b : List Nat => a.length ≤ b.length)
      ((splitToBigrams query).map (fun bg => hasPhrase bg v))
    rw [hs] at hp
    have hsorted : ∀ l' ∈ l :: rest, l'.Sorted (· < ·) := by
      intro l' hl'
      have hmem : l' ∈ (splitToBigrams query).map (fun bg => hasPhrase bg v) := hp.subset hl'
      obtain ⟨bg, _, rfl⟩ := List.mem_map.mp hmem
      exact sorted_hasPhrase bg v hpost
    rw [mem_foldl_intersect rest l (hsorted l (by simp))
      (fun l' hl' => hsorted l' (by simp [hl'])) p]
    constructor
    · rintro ⟨hl, hrest⟩
      intro bg hbg
      have hmem : hasPhrase bg v ∈ l :: rest :=
        hp.mem_iff.mpr (List.mem_map_of_mem _ hbg)
      rcases List.mem_cons.mp hmem with hmem | hmem
      · rw [← hmem] at hl; exact hl
      · exact hrest _ hmem
    · intro hall
      have hof : ∀ l' ∈ l :: rest, p ∈ l' := by
        intro l' hl'
        have hmem : l' ∈ (splitToBigrams query).map (fun bg => hasPhrase bg v) := hp.subset hl'
        obtain ⟨bg, hbg, rfl⟩ := List.mem_map.mp hmem
        exact hall bg hbg
      exact ⟨hof l (by simp), fun l' hl' => hof l' (by simp [hl'])⟩

/-- Witness for C7 at a concrete query and viewer. -/
theorem searchPhrase_correct_witness :
    (splitToBigrams ["a", "b"]).length = (["a", "b"] : List String).length - 1 ∧
    splitToBigrams ["a", "b"] =
      ((["a", "b"] : List String).zip (["a", "b"] : List String).tail).map
        (fun w => ⟨w.1, w.2⟩) ∧
    (1 ∈ searchPhrase ["a", "b"] vW ↔
      ∀ bg ∈ splitToBigrams ["a", "b"], 1 ∈ hasPhrase bg vW) :=
  searchPhrase_correct ["a", "b"] vW 1 (by decide)
    (by
      intro t
      dsimp only [vW]
      split
      · simp
      · split <;> simp)

/-- Claim C8: for every query of length at most one, `searchPhrase` returns
exactly `booleanFilter` of the query; in particular `searchPhrase([])` is
the empty sequence and `searchPhrase([t])` equals `booleanFilter([t])`. -/
theorem searchPhrase_degenerate (v : Viewer) (query : List String) (t : String)
    (h : query.length ≤ 1) :
    searchPhrase query v = booleanFilter query v ∧
    searchPhrase ([] : List String) v = [] ∧
    booleanFilter ([] : List String) v = [] ∧
    searchPhrase [t] v = booleanFilter [t] v :=
  ⟨by simp [searchPhrase, h], rfl, rfl, rfl⟩

/-- Witness for C8 at a concrete query and viewer. -/
theorem searchPhrase_degenerate_witness :
    searchPhrase ["a"] vW = booleanFilter ["a"] vW ∧
    searchPhrase ([] : List String) vW = [] ∧
    booleanFilter ([] : List String) vW = [] ∧
    searchPhrase ["b"] vW = booleanFilter ["b"] vW :=
  searchPhrase_degenerate vW ["a"] "b" (by decide)

/-! ## Helper lemmas: `getId` -/

theorem getId_found {s : IdTables} {t : String} {id : Nat} (h : lookupA s.fw t = some id) :
    getId t s = (id, s) := by
  simp [getId, h]

theorem getId_sound (t : String) (s : IdTables) :
    lookupA (getId t s).2.fw t = some (getId t s).1 := by
  cases h : lookupA s.fw t with
  | some id => simp [getId, h]
  | none => simp [getId, h, lookupA_insertA_self]

theorem getId_mono {s : IdTables} {u : String} {id : Nat} (t : String)
    (h : lookupA s.fw u = some id) :
    lookupA (getId t s).2.fw u = some id := by
  cases h2 : lookupA s.fw t with
  | some i => simp [getId, h2, h]
  | none =>
    by_cases he : u = t
    · subst he
      rw [h] at h2
      cases h2
    · simp only [getId, h2]
      rw [lookupA_insertA_ne _ _ _ _ he]
      exact h

theorem seq_succ_notin_inv {s : IdTables} (h4 : ∀ q ∈ s.inv, q.1 ≤ s.seq) :
    (s.seq + 1) ∉ keysA s.inv := by
  intro hmem
  obtain ⟨q, hq, hq1⟩ := List.mem_map.mp hmem
  have := h4 q hq
  omega

theorem getId_WF {s : IdTables} (t : String) (hs : idWF s) : idWF (getId t s).2 := by
  obtain ⟨h1, h2, h3, h4⟩ := hs
  cases h : lookupA s.fw t with
  | some id =>
    rw [getId_found h]
    exact ⟨h1, h2, h3, h4⟩
  | none =>
    have hnk : t ∉ keysA s.fw := lookupA_eq_none.mp h
    have hinv := seq_succ_notin_inv h4
    simp only [getId, h, idWF]
    rw [insertA_of_not_mem _ hnk, insertA_of_not_mem _ hinv]
    refine ⟨?_, ?_, ?_, ?_⟩
    · intro p hp
      rcases List.mem_append.mp hp with hp | hp
      · have := h1 p hp; omega
      · simp only [List.mem_singleton] at hp
        subst hp
        simp
    · intro p hp
      rcases List.mem_append.mp hp with hp | hp
      · exact lookupA_append_left _ (h2 p hp)
      · simp only [List.mem_singleton] at hp
        subst hp
        rw [lookupA_append_right _ hinv]
        simp [lookupA]
    · intro p hp q hq heq
      rcases List.mem_append.mp hp with hp | hp <;> rcases List.mem_append.mp hq with hq | hq
      · exact h3 p hp q hq heq
      · have hb := h1 p hp
        simp only [List.mem_singleton] at hq
        subst hq
        simp at heq
        omega
      · have hb := h1 q hq
        simp only [List.mem_singleton] at hp
        subst hp
        simp at heq
        omega
      · simp only [List.mem_singleton] at hp hq
        subst hp; subst hq
        rfl
    · intro q hq
      rcases List.mem_append.mp hq with hq | hq
      · have := h4 q hq; omega
      · simp only [List.mem_singleton] at hq
        subst hq
        simp

/-- Claim C4: calling the id resolver twice in sequence on the same text
returns the same id, the inverse table resolves that id back to exactly the
text, distinct texts never receive the same id, and well-formedness is
preserved (so the properties hold along any sequential execution). -/
theorem getId_bijective (s : IdTables) (t u : String) (hs : idWF s) (hne : t ≠ u) :
    (getId t (getId t s).2).1 = (getId t s).1 ∧
    lookupA (getId t s).2.inv (getId t s).1 = some t ∧
    (getId u (getId t s).2).1 ≠ (getId t s).1 ∧
    idWF (getId t s).2 := by
  obtain ⟨h1, h2, h3, h4⟩ := hs
  refine ⟨?_, ?_, ?_, getId_WF t ⟨h1, h2, h3, h4⟩⟩
  · rw [getId_found (getId_sound t s)]
  · cases h : lookupA s.fw t with
    | some id =>
      have hmem := lookupA_mem h
      have := h2 _ hmem
      simpa [getId, h] using this
    | none =>
      simp only [getId, h]
      exact lookupA_insertA_self _ _ _
  · cases h : lookupA s.fw t with
    | some id =>
      have hid : id ≤ s.seq := h1 _ (lookupA_mem h)
      rw [getId_found h]
      cases h5 : lookupA s.fw u with
      | some id2 =>
        simp only [getId, h5]
        intro heq
        exact hne ((h3 (u, id2) (lookupA_mem h5) (t, id) (lookupA_mem h) heq).symm)
      | none =>
        simp only [getId, h5]
        simp
        omega
    | none =>
      simp only [getId, h]
      cases h5 : lookupA s.fw u with
      | some id2 =>
        have hl : lookupA (insertA s.fw t (s.seq + 1)) u = some id2 := by
          rw [lookupA_insertA_ne _ _ _ _ (Ne.symm hne)]
          exact h5
        have hid2 : id2 ≤ s.seq := h1 _ (lookupA_mem h5)
        simp only [getId, hl]
        simp
        omega
      | none =>
        have hl : lookupA (insertA s.fw t (s.seq + 1)) u = none := by
          rw [lookupA_insertA_ne _ _ _ _ (Ne.symm hne)]
          exact h5
        simp only [getId, hl]
        simp

/-- Witness for C4 at the empty tables and two distinct texts. -/
theorem getId_bijective_witness :
    (getId "a" (getId "a" emptyIdTables).2).1 = (getId "a" emptyIdTables).1 ∧
    lookupA (getId "a" emptyIdTables).2.inv (getId "a" emptyIdTables).1 = some "a" ∧
    (getId "b" (getId "a" emptyIdTables).2).1 ≠ (getId "a" emptyIdTables).1 ∧
    idWF (getId "a" emptyIdTables).2 :=
  getId_bijective emptyIdTables "a" "b" (by constructor <;> simp [emptyIdTables, idWF])
    (by decide)

/-! ## Helper lemmas: staging -/

theorem stageInsert_WF (w p : Nat) {g : Staging} (hg : StagingWF g) :
    StagingWF (stageInsert w p g) := by
  obtain ⟨h1, h2, h3⟩ := hg
  unfold stageInsert
  cases h : lookupA g.tempInverted w with
  | some ps =>
    refine ⟨h1, ?_, ?_⟩
    · intro w' hw'
      by_cases he : w' = w
      · subst he
        rw [lookupA_insertA_self]
        rfl
      · rw [lookupA_insertA_ne _ _ _ _ he]
        exact h2 w' hw'
    · intro e he'
      rcases mem_insertA_sub he' with he' | he'
      · subst he'
        exact h3 (w, ps) (lookupA_mem h)
      · exact h3 e he'
  | none =>
    have hw : w ∉ g.wordIdList := by
      intro hmem
      have := h2 w hmem
      rw [h] at this
      simp at this
    refine ⟨?_, ?_, ?_⟩
    · simp [List.nodup_append, h1, hw]
    · intro w' hw'
      rcases List.mem_append.mp hw' with hw' | hw'
      · have he : w' ≠ w := fun hh => hw (hh ▸ hw')
        rw [lookupA_insertA_ne _ _ _ _ he]
        exact h2 w' hw'
      · simp only [List.mem_singleton] at hw'
        subst hw'
        rw [lookupA_insertA_self]
        rfl
    · intro e he'
      rcases mem_insertA_sub he' with he' | he'
      · subst he'
        simp
      · exact List.mem_append.mpr (Or.inl (h3 e he'))

theorem stageInsert_self (w p : Nat) (g : Staging) : stagedIn (stageInsert w p g) w p := by
  unfold stageInsert
  cases h : lookupA g.tempInverted w with
  | some ps => exact ⟨insertSet p ps, lookupA_insertA_self _ _ _, mem_insertSet_self p ps⟩
  | none => exact ⟨[p], lookupA_insertA_self _ _ _, by simp⟩

theorem stageInsert_mono {g : Staging} {w' p' : Nat} (w p : Nat) (h : stagedIn g w' p') :
    stagedIn (stageInsert w p g) w' p' := by
  obtain ⟨ps, hps, hmem⟩ := h
  unfold stageInsert
  by_cases he : w' = w
  · subst he
    rw [hps]
    exact ⟨insertSet p ps, lookupA_insertA_self _ _ _, mem_insertSet_of_mem p hmem⟩
  · cases h2 : lookupA g.tempInverted w with
    | some qs =>
      exact ⟨ps, by rw [lookupA_insertA_ne _ _ _ _ he]; exact hps, hmem⟩
    | none =>
      exact ⟨ps, by rw [lookupA_insertA_ne _ _ _ _ he]; exact hps, hmem⟩

theorem stageInsert_noop {g : Staging} {w p : Nat} (h : stagedIn g w p) :
    stageInsert w p g = g := by
  obtain ⟨ps, hps, hmem⟩ := h
  unfold stageInsert
  rw [hps]
  dsimp only
  rw [insertSet_eq_of_mem hmem, insertA_eq_of_lookup hps]

theorem foldl_updateInverted_WF (calls : List (String × Nat)) (sg : Store × Staging)
    (hg : StagingWF sg.2) :
    StagingWF ((calls.foldl (fun sg c => updateInverted c.1 c.2 sg.1 sg.2) sg).2) := by
  induction calls generalizing sg with
  | nil => exact hg
  | cons c t ih =>
    simp only [List.foldl_cons]
    exact ih _ (stageInsert_WF _ _ hg)

/-! ## Claim C10 -/

/-- Claim C10: after any sequence of `updateInverted` calls starting from the
empty staging structure (and any store), `wordIdList` contains each word id
at most once and its elements are exactly the keys of `tempInverted`: every
listed id has a staged posting set, and every staged posting set's key is
listed, so iterating `wordIdList` reaches every staged posting set. -/
theorem updateInverted_staging_invariant (calls : List (String × Nat)) (s : Store) :
    StagingWF ((calls.foldl (fun sg c => updateInverted c.1 c.2 sg.1 sg.2)
      (s, emptyStaging)).2) :=
  foldl_updateInverted_WF calls (s, emptyStaging)
    (by refine ⟨?_, ?_, ?_⟩ <;> simp [emptyStaging])

/-! ## Claims C1, C2, C3: failing evaluations -/

/-- Claim C1 (failing evaluation): under the schedule that runs all four
spawned tasks only after the loop has finished — a schedule the Go runtime
permits — every task reads the shared loop variables, which then hold the
last pair ("b", 2).  The execution is accepted and finishes, yet term "a"
was never assigned a word id, so no staging entry and no forward-index
entry exist for it, while "b" was processed twice: the pair ("a", 1) of the
document is skipped, contradicting the claim. -/
theorem updateOrAddPage_skips_pair :
    ("a", 1) ∈ docAB.words ∧
    Option.map
      (fun st => (st.finished, lookupA st.store.wordTab.fw "a",
        lookupA st.store.forwardTable 1, st.staging.tempInverted))
      (UpdateOrAddPageExec docAB emptyStore emptyStaging
        [UEvent.spawn, UEvent.spawn, UEvent.runInv, UEvent.runInv,
         UEvent.runFwd, UEvent.runFwd, UEvent.finish]) =
      some (true, none, some (FwVal.bucket [(1, 2)]), [(1, [1])]) :=
  ⟨by simp [docAB], rfl⟩

/-- Claim C2 (failing evaluation): word id 1 staged page 10 and word id 2
staged page 20; under the schedule that runs both flush tasks only after
the loop has finished, each task keys its sub-bucket by its per-iteration
copy of the word id but reads the posting set through the shared loop
variable, which then holds the last word id 2.  The flush is accepted, yet
word 1's persisted posting list is [20] instead of its staged [10]. -/
theorem flushInverted_capture_bug :
    lookupA gTwo.tempInverted 1 = some [10] ∧
    Option.map (fun tab => lookupA tab 1)
      (FlushInvertedExec emptyStore gTwo
        [FEvent.spawn, FEvent.spawn, FEvent.run 0, FEvent.run 0]) =
      some (some [20]) :=
  ⟨rfl, rfl⟩

/-- Claim C3 (failing evaluation): ingesting a one-term document (even in the
race-free sequential schedule), the forward-index write turns the page id
key of the forward table into a nested bucket, so `setMaxTf`'s plain `Put`
of `maxTf = 2` fails with `ErrIncompatibleValue` (an error the source
discards) and `getMaxTf` reads bolt's nil result for the bucket key instead
of the document's `maxTf`. -/
theorem maxTf_not_persisted :
    getMaxTf (UpdateOrAddPage docA emptyStore emptyStaging).1 1 = none ∧
    docA.maxTf = 2 ∧
    lookupA (UpdateOrAddPage docA emptyStore emptyStaging).1.forwardTable 1 =
      some (FwVal.bucket [(1, 2)]) :=
  ⟨rfl, rfl, rfl⟩

/-! ## Helper lemmas: the `UpdateOrAddPage` scheduler -/

theorem execFrom_none (doc : Document) (evs : List UEvent) :
    evs.foldl (fun o e => o.bind (ustep doc e)) none = none := by
  induction evs with
  | nil => rfl
  | cons e t ih => simpa using ih

theorem execFrom_cons (doc : Document) (st : UState) (e : UEvent) (evs : List UEvent) :
    execFrom doc st (e :: evs) =
      match ustep doc e st with
      | some st1 => execFrom doc st1 evs
      | none => none := by
  cases h : ustep doc e st with
  | some st1 => simp [execFrom, h]
  | none => simp [execFrom, h, execFrom_none]

theorem execFrom_append (doc : Document) (st : UState) (l₁ l₂ : List UEvent) :
    execFrom doc st (l₁ ++ l₂) =
      match execFrom doc st l₁ with
      | some st1 => execFrom doc st1 l₂
      | none => none := by
  induction l₁ generalizing st with
  | nil => simp [execFrom]
  | cons e t ih =>
    rw [List.cons_append, execFrom_cons, execFrom_cons]
    cases hu : ustep doc e st with
    | none => rfl
    | some st1 => exact ih st1

theorem ustep_UInv {doc : Document} {st st' : UState} {e : UEvent}
    (hI : UInv doc st) (h : ustep doc e st = some st') : UInv doc st' := by
  obtain ⟨i1, i2, i3, i4⟩ := hI
  cases e with
  | spawn =>
    cases hw : doc.words[st.loopIdx]? with
    | none => simp [ustep, hw] at h
    | some wt =>
      obtain ⟨hlt, -⟩ := List.getElem?_eq_some.mp hw
      simp only [ustep, hw, Option.some_inj] at h
      subst h
      refine ⟨by dsimp only; omega, by dsimp only; omega, by dsimp only; omega, ?_⟩
      intro hf
      dsimp only at hf
      exact absurd (i4 hf).2.2 (by omega)
  | runInv =>
    cases hp : st.pendInv with
    | zero => simp [ustep, hp] at h
    | succ k =>
      simp only [ustep, hp, Option.some_inj] at h
      subst h
      refine ⟨by dsimp only; omega, by dsimp only; omega, by dsimp only; omega, ?_⟩
      intro hf
      dsimp only at hf
      exact absurd (i4 hf).1 (by omega)
  | runFwd =>
    cases hp : st.pendFwd with
    | zero => simp [ustep, hp] at h
    | succ k =>
      simp only [ustep, hp, Option.some_inj] at h
      subst h
      refine ⟨by dsimp only; omega, by dsimp only; omega, by dsimp only; omega, ?_⟩
      intro hf
      dsimp only at hf
      exact absurd (i4 hf).2.1 (by omega)
  | finish =>
    simp only [ustep] at h
    split at h
    · rename_i hc
      simp only [Option.some_inj] at h
      subst h
      exact ⟨by dsimp only; omega, by dsimp only; omega, by dsimp only; omega,
        fun _ => ⟨hc.2.2.1, hc.2.2.2, hc.2.1⟩⟩
    · cases h

theorem ustep_stuck {doc : Document} {st : UState} (hI : UInv doc st)
    (hf : st.finished = true) (e : UEvent) : ustep doc e st = none := by
  obtain ⟨i1, i2, i3, i4⟩ := hI
  obtain ⟨p0, q0, l0⟩ := i4 hf
  cases e with
  | spawn =>
    have hw : doc.words[st.loopIdx]? = none := List.getElem?_eq_none_iff.mpr (by omega)
    simp [ustep, hw]
  | runInv => simp [ustep, p0]
  | runFwd => simp [ustep, q0]
  | finish => simp [ustep, hf]

theorem ustep_finished_of_ne {doc : Document} {st st' : UState} {e : UEvent}
    (hne : e ≠ UEvent.finish) (h : ustep doc e st = some st') :
    st'.finished = st.finished := by
  cases e with
  | spawn =>
    cases hw : doc.words[st.loopIdx]? with
    | none => simp [ustep, hw] at h
    | some wt =>
      simp only [ustep, hw, Option.some_inj] at h
      subst h
      rfl
  | runInv =>
    cases hp : st.pendInv with
    | zero => simp [ustep, hp] at h
    | succ k =>
      simp only [ustep, hp, Option.some_inj] at h
      subst h
      rfl
  | runFwd =>
    cases hp : st.pendFwd with
    | zero => simp [ustep, hp] at h
    | succ k =>
      simp only [ustep, hp, Option.some_inj] at h
      subst h
      rfl
  | finish => exact absurd rfl hne

theorem ustep_finish_eq {doc : Document} {st st' : UState}
    (h : ustep doc UEvent.finish st = some st') :
    st.finished = false ∧ st'.finished = true ∧ st.pendInv = 0 ∧ st.pendFwd = 0 ∧
      st.loopIdx = doc.words.length := by
  simp only [ustep] at h
  split at h
  · rename_i hc
    simp only [Option.some_inj] at h
    subst h
    exact ⟨hc.1, rfl, hc.2.2.1, hc.2.2.2, hc.2.1⟩
  · cases h

theorem ustep_done {doc : Document} {st st' : UState} {e : UEvent}
    (h : ustep doc e st = some st') :
    st'.doneInv = st.doneInv + (if e = UEvent.runInv then 1 else 0) ∧
    st'.doneFwd = st.doneFwd + (if e = UEvent.runFwd then 1 else 0) := by
  cases e with
  | spawn =>
    cases hw : doc.words[st.loopIdx]? with
    | none => simp [ustep, hw] at h
    | some wt =>
      simp only [ustep, hw, Option.some_inj] at h
      subst h
      simp
  | runInv =>
    cases hp : st.pendInv with
    | zero => simp [ustep, hp] at h
    | succ k =>
      simp only [ustep, hp, Option.some_inj] at h
      subst h
      simp
  | runFwd =>
    cases hp : st.pendFwd with
    | zero => simp [ustep, hp] at h
    | succ k =>
      simp only [ustep, hp, Option.some_inj] at h
      subst h
      simp
  | finish =>
    simp only [ustep] at h
    split at h
    · simp only [Option.some_inj] at h
      subst h
      simp
    · cases h

theorem execFrom_UInv {doc : Document} {st st' : UState} {evs : List UEvent}
    (hI : UInv doc st) (h : execFrom doc st evs = some st') : UInv doc st' := by
  induction evs generalizing st with
  | nil =>
    simp only [execFrom, List.foldl_nil, Option.some_inj] at h
    subst h
    exact hI
  | cons e t ih =>
    rw [execFrom_cons] at h
    cases hu : ustep doc e st with
    | none => rw [hu] at h; cases h
    | some st1 =>
      rw [hu] at h
      exact ih (ustep_UInv hI hu) h

theorem execFrom_done {doc : Document} {st st' : UState} {evs : List UEvent}
    (h : execFrom doc st evs = some st') :
    st'.doneInv = st.doneInv + evs.count UEvent.runInv ∧
    st'.doneFwd = st.doneFwd + evs.count UEvent.runFwd := by
  induction evs generalizing st with
  | nil =>
    simp only [execFrom, List.foldl_nil, Option.some_inj] at h
    subst h
    simp
  | cons e t ih =>
    rw [execFrom_cons] at h
    cases hu : ustep doc e st with
    | none => rw [hu] at h; cases h
    | some st1 =>
      rw [hu] at h
      obtain ⟨d1, d2⟩ := ih h
      obtain ⟨e1, e2⟩ := ustep_done hu
      rw [d1, d2, e1, e2]
      constructor <;> · rw [List.count_cons]; by_cases he : e = UEvent.runInv <;>
        by_cases he2 : e = UEvent.runFwd <;> simp [he, he2] <;> omega

theorem execFrom_stuck {doc : Document} {st st' : UState} {evs : List UEvent}
    (hI : UInv doc st) (hf : st.finished = true) (h : execFrom doc st evs = some st') :
    evs = [] ∧ st' = st := by
  cases evs with
  | nil =>
    simp only [execFrom, List.foldl_nil, Option.some_inj] at h
    exact ⟨rfl, h.symm⟩
  | cons e t =>
    rw [execFrom_cons, ustep_stuck hI hf e] at h
    cases h

theorem execFrom_no_finish {doc : Document} {st st' : UState} {evs : List UEvent}
    (hI : UInv doc st) (h : execFrom doc st evs = some st')
    (hf : st.finished = false) (hf' : st'.finished = false) :
    UEvent.finish ∉ evs := by
  induction evs generalizing st with
  | nil => simp
  | cons e t ih =>
    rw [execFrom_cons] at h
    cases hu : ustep doc e st with
    | none => rw [hu] at h; cases h
    | some st1 =>
      rw [hu] at h
      by_cases he : e = UEvent.finish
      · subst he
        exfalso
        obtain ⟨-, h1f, -, -, -⟩ := ustep_finish_eq hu
        obtain ⟨rfl, rfl⟩ := execFrom_stuck (ustep_UInv hI hu) h1f h
        rw [h1f] at hf'
        cases hf'
      · have h1f : st1.finished = false := by
          rw [ustep_finished_of_ne he hu, hf]
        intro hmem
        rcases List.mem_cons.mp hmem with hmem | hmem
        · exact he hmem.symm
        · exact ih (ustep_UInv hI hu) h h1f hmem

theorem initU_UInv (doc : Document) (s : Store) (g : Staging) :
    UInv doc (initU doc s g) := by
  refine ⟨rfl, rfl, by simp [initU], ?_⟩
  intro hf
  simp [initU] at hf

theorem exec_spawns (doc : Document) :
    ∀ (k : Nat) (st : UState), st.loopIdx + k ≤ doc.words.length →
      ∃ st', execFrom doc st (List.replicate k UEvent.spawn) = some st' ∧
        st'.loopIdx = st.loopIdx + k ∧ st'.pendInv = st.pendInv + k ∧
        st'.pendFwd = st.pendFwd + k ∧ st'.finished = st.finished := by
  intro k
  induction k with
  | zero =>
    intro st _
    exact ⟨st, rfl, rfl, rfl, rfl, rfl⟩
  | succ k ih =>
    intro st h
    have hlt : st.loopIdx < doc.words.length := by omega
    have hwt : doc.words[st.loopIdx]? = some doc.words[st.loopIdx] :=
      List.getElem?_eq_getElem hlt
    have hstep : ustep doc UEvent.spawn st = some { st with
        sharedWord := doc.words[st.loopIdx].1, sharedTf := doc.words[st.loopIdx].2,
        loopIdx := st.loopIdx + 1, pendInv := st.pendInv + 1, pendFwd := st.pendFwd + 1 } := by
      simp [ustep, hwt]
    rw [List.replicate_succ, execFrom_cons, hstep]
    obtain ⟨st', h1, h2, h3, h4, h5⟩ := ih { st with
        sharedWord := doc.words[st.loopIdx].1, sharedTf := doc.words[st.loopIdx].2,
        loopIdx := st.loopIdx + 1, pendInv := st.pendInv + 1, pendFwd := st.pendFwd + 1 }
      (by dsimp only; omega)
    refine ⟨st', h1, ?_, ?_, ?_, ?_⟩
    · dsimp only at h2; omega
    · dsimp only at h3; omega
    · dsimp only at h4; omega
    · dsimp only at h5; exact h5

theorem exec_runs (doc : Document) :
    ∀ (runs : List UEvent) (st : UState),
      (∀ e ∈ runs, e = UEvent.runInv ∨ e = UEvent.runFwd) →
      st.pendInv = runs.count UEvent.runInv →
      st.pendFwd = runs.count UEvent.runFwd →
      ∃ st', execFrom doc st runs = some st' ∧ st'.pendInv = 0 ∧ st'.pendFwd = 0 ∧
        st'.loopIdx = st.loopIdx ∧ st'.finished = st.finished := by
  intro runs
  induction runs with
  | nil =>
    intro st _ h1 h2
    exact ⟨st, rfl, by simpa using h1, by simpa using h2, rfl, rfl⟩
  | cons e t ih =>
    intro st hall h1 h2
    rcases hall e (by simp) with he | he
    · subst he
      simp [List.count_cons] at h1 h2
      cases hp : st.pendInv with
      | zero => exfalso; rw [hp] at h1; omega
      | succ k =>
        have hstep : ustep doc UEvent.runInv st = some { st with
            store := (updateInverted st.sharedWord st.pid st.store st.staging).1,
            staging := (updateInverted st.sharedWord st.pid st.store st.staging).2,
            pendInv := k, doneInv := st.doneInv + 1 } := by
          simp [ustep, hp]
        rw [execFrom_cons, hstep]
        obtain ⟨st', h3, h4, h5, h6, h7⟩ := ih { st with
            store := (updateInverted st.sharedWord st.pid st.store st.staging).1,
            staging := (updateInverted st.sharedWord st.pid st.store st.staging).2,
            pendInv := k, doneInv := st.doneInv + 1 }
          (fun e2 he2 => hall e2 (by simp [he2]))
          (by dsimp only; omega) (by dsimp only; omega)
        refine ⟨st', h3, h4, h5, ?_, ?_⟩
        · dsimp only at h6; omega
        · dsimp only at h7; exact h7
    · subst he
      simp [List.count_cons] at h1 h2
      cases hp : st.pendFwd with
      | zero => exfalso; rw [hp] at h2; omega
      | succ k =>
        have hstep : ustep doc UEvent.runFwd st = some { st with
            store := updateForward st.sharedWord st.pid st.sharedTf st.store,
            pendFwd := k, doneFwd := st.doneFwd + 1 } := by
          simp [ustep, hp]
        rw [execFrom_cons, hstep]
        obtain ⟨st', h3, h4, h5, h6, h7⟩ := ih { st with
            store := updateForward st.sharedWord st.pid st.sharedTf st.store,
            pendFwd := k, doneFwd := st.doneFwd + 1 }
          (fun e2 he2 => hall e2 (by simp [he2]))
          (by dsimp only; omega) (by dsimp only; omega)
        refine ⟨st', h3, h4, h5, ?_, ?_⟩
        · dsimp only at h6; omega
        · dsimp only at h7; exact h7

/-! ## Claim C5 -/

/-- Claim C5: within one `UpdateOrAddPage` call, in every accepted schedule
the event that issues the `maxTf` and metadata writes is the last event,
preceded by all `len(words)` staging-task executions and all `len(words)`
forward-task executions (the join barrier); conversely, the per-term task
executions may occur in any order relative to each other: every arrangement
of the `2n` task events between the loop and the barrier is an accepted
schedule. -/
theorem updateOrAddPage_barrier (doc : Document) (s : Store) (g : Staging)
    (evs : List UEvent)
    (h : Option.map UState.finished (UpdateOrAddPageExec doc s g evs) = some true) :
    (∃ evs', evs = evs' ++ [UEvent.finish] ∧ UEvent.finish ∉ evs' ∧
      evs'.count UEvent.runInv = doc.words.length ∧
      evs'.count UEvent.runFwd = doc.words.length) ∧
    (∀ runs : List UEvent, (∀ e ∈ runs, e = UEvent.runInv ∨ e = UEvent.runFwd) →
      runs.count UEvent.runInv = doc.words.length →
      runs.count UEvent.runFwd = doc.words.length →
      Option.map UState.finished
        (UpdateOrAddPageExec doc s g
          (List.replicate doc.words.length UEvent.spawn ++ runs ++ [UEvent.finish])) =
        some true) := by
  constructor
  · obtain ⟨st, hexec, hfin⟩ : ∃ st, UpdateOrAddPageExec doc s g evs = some st ∧
        st.finished = true := by
      cases hx : UpdateOrAddPageExec doc s g evs with
      | none => rw [hx] at h; cases h
      | some st =>
        rw [hx] at h
        simp at h
        exact ⟨st, rfl, h⟩
    rcases List.eq_nil_or_concat evs with rfl | ⟨evs', e, rfl⟩
    · unfold UpdateOrAddPageExec execFrom at hexec
      simp only [List.foldl_nil, Option.some_inj] at hexec
      rw [← hexec] at hfin
      simp [initU] at hfin
    · rw [List.concat_eq_append] at hexec ⊢
      unfold UpdateOrAddPageExec at hexec
      rw [execFrom_append] at hexec
      cases hprev : execFrom doc (initU doc s g) evs' with
      | none => rw [hprev] at hexec; cases hexec
      | some stPrev =>
        rw [hprev] at hexec
        dsimp only at hexec
        have hstep : ustep doc e stPrev = some st := by
          rw [execFrom_cons] at hexec
          cases hu : ustep doc e stPrev with
          | none => rw [hu] at hexec; cases hexec
          | some st1 =>
            rw [hu] at hexec
            simp only [execFrom, List.foldl_nil, Option.some_inj] at hexec
            rw [hexec]
        have hIprev : UInv doc stPrev := execFrom_UInv (initU_UInv doc s g) hprev
        have hfprev : stPrev.finished = false := by
          cases hb : stPrev.finished
          · rfl
          · exfalso
            rw [ustep_stuck hIprev hb e] at hstep
            cases hstep
        have hefin : e = UEvent.finish := by
          by_contra hne
          have h2 := ustep_finished_of_ne hne hstep
          rw [hfin, hfprev] at h2
          cases h2
        subst hefin
        obtain ⟨-, -, hp0, hq0, hl0⟩ := ustep_finish_eq hstep
        obtain ⟨hd1, hd2⟩ := execFrom_done hprev
        obtain ⟨i1, i2, i3, i4⟩ := hIprev
        refine ⟨evs', rfl,
          execFrom_no_finish (initU_UInv doc s g) hprev (by simp [initU]) hfprev, ?_, ?_⟩
        · have h0 : (initU doc s g).doneInv = 0 := rfl
          rw [h0] at hd1
          omega
        · have h0 : (initU doc s g).doneFwd = 0 := rfl
          rw [h0] at hd2
          omega
  · intro runs hall hc1 hc2
    obtain ⟨stS, hS, hSl, hSpi, hSpf, hSf⟩ := exec_spawns doc doc.words.length
      (initU doc s g) (by simp [initU])
    obtain ⟨stR, hR, hRpi, hRpf, hRl, hRf⟩ := exec_runs doc runs stS hall
      (by rw [hSpi, hc1]; simp [initU]) (by rw [hSpf, hc2]; simp [initU])
    have hRfin : stR.finished = false := by rw [hRf, hSf]; rfl
    have hRloop : stR.loopIdx = doc.words.length := by
      rw [hRl, hSl]
      simp [initU]
    have hfstep : ustep doc UEvent.finish stR = some { stR with
        store := finishPage doc stR.pid stR.store, finished := true } := by
      simp [ustep, hRfin, hRloop, hRpi, hRpf]
    unfold UpdateOrAddPageExec
    simp only [execFrom_append, hS, hR, execFrom_cons, hfstep]
    rfl

/-- Witness for C5 at a concrete one-term document and schedule. -/
theorem updateOrAddPage_barrier_witness :
    (∃ evs', [UEvent.spawn, UEvent.runInv, UEvent.runFwd, UEvent.finish] =
        evs' ++ [UEvent.finish] ∧ UEvent.finish ∉ evs' ∧
      evs'.count UEvent.runInv = docA.words.length ∧
      evs'.count UEvent.runFwd = docA.words.length) ∧
    (∀ runs : List UEvent, (∀ e ∈ runs, e = UEvent.runInv ∨ e = UEvent.runFwd) →
      runs.count UEvent.runInv = docA.words.length →
      runs.count UEvent.runFwd = docA.words.length →
      Option.map UState.finished
        (UpdateOrAddPageExec docA emptyStore emptyStaging
          (List.replicate docA.words.length UEvent.spawn ++ runs ++ [UEvent.finish])) =
        some true) :=
  updateOrAddPage_barrier docA emptyStore emptyStaging
    [UEvent.spawn, UEvent.runInv, UEvent.runFwd, UEvent.finish] rfl

/-! ## Helper lemmas: re-ingestion (claim C9) -/

theorem setMaxTf_fields (pid m : Nat) (s : Store) :
    (setMaxTf pid m s).urlTab = s.urlTab ∧ (setMaxTf pid m s).wordTab = s.wordTab ∧
    (setMaxTf pid m s).invertedTable = s.invertedTable := by
  unfold setMaxTf
  split <;> exact ⟨rfl, rfl, rfl⟩

theorem finishPage_fields (doc : Document) (pid : Nat) (s : Store) :
    (finishPage doc pid s).urlTab = s.urlTab ∧ (finishPage doc pid s).wordTab = s.wordTab ∧
    (finishPage doc pid s).invertedTable = s.invertedTable := by
  obtain ⟨h1, h2, h3⟩ := setMaxTf_fields pid doc.maxTf s
  exact ⟨h1, h2, h3⟩

theorem ingestStep_fields (pid : Nat) (sg : Store × Staging) (wt : String × Nat) :
    (ingestStep pid sg wt).1.urlTab = sg.1.urlTab ∧
    (ingestStep pid sg wt).1.invertedTable = sg.1.invertedTable :=
  ⟨rfl, rfl⟩

theorem ingestStep_wordTab_mono {sg : Store × Staging} {u : String} {id : Nat}
    (pid : Nat) (wt : String × Nat) (h : lookupA sg.1.wordTab.fw u = some id) :
    lookupA (ingestStep pid sg wt).1.wordTab.fw u = some id :=
  getId_mono wt.1 (getId_mono wt.1 h)

theorem ingestStep_staged_mono {sg : Store × Staging} {w p : Nat}
    (pid : Nat) (wt : String × Nat) (h : stagedIn sg.2 w p) :
    stagedIn (ingestStep pid sg wt).2 w p :=
  stageInsert_mono _ _ h

theorem ingestFold_fields (ws : List (String × Nat)) (pid : Nat) :
    ∀ sg : Store × Staging,
      (ws.foldl (ingestStep pid) sg).1.urlTab = sg.1.urlTab ∧
      (ws.foldl (ingestStep pid) sg).1.invertedTable = sg.1.invertedTable := by
  induction ws with
  | nil => intro sg; exact ⟨rfl, rfl⟩
  | cons wt rest ih =>
    intro sg
    rw [List.foldl_cons]
    obtain ⟨h1, h2⟩ := ih (ingestStep pid sg wt)
    exact ⟨h1, h2⟩

theorem ingestFold_wordTab_mono (ws : List (String × Nat)) (pid : Nat) :
    ∀ (sg : Store × Staging) {u : String} {id : Nat},
      lookupA sg.1.wordTab.fw u = some id →
      lookupA ((ws.foldl (ingestStep pid) sg).1).wordTab.fw u = some id := by
  induction ws with
  | nil => intro sg u id h; exact h
  | cons wt rest ih =>
    intro sg u id h
    rw [List.foldl_cons]
    exact ih _ (ingestStep_wordTab_mono pid wt h)

theorem ingestFold_staged_mono (ws : List (String × Nat)) (pid : Nat) :
    ∀ (sg : Store × Staging) {w p : Nat}, stagedIn sg.2 w p →
      stagedIn ((ws.foldl (ingestStep pid) sg).2) w p := by
  induction ws with
  | nil => intro sg w p h; exact h
  | cons wt rest ih =>
    intro sg w p h
    rw [List.foldl_cons]
    exact ih _ (ingestStep_staged_mono pid wt h)

theorem ingestFold_WF (ws : List (String × Nat)) (pid : Nat) :
    ∀ sg : Store × Staging, StagingWF sg.2 →
      StagingWF ((ws.foldl (ingestStep pid) sg).2) := by
  induction ws with
  | nil => intro sg hg; exact hg
  | cons wt rest ih =>
    intro sg hg
    rw [List.foldl_cons]
    exact ih _ (stageInsert_WF _ _ hg)

theorem ingestFold_establishes (ws : List (String × Nat)) (pid : Nat) :
    ∀ (sg : Store × Staging) (wt : String × Nat), wt ∈ ws →
      ∃ wid, lookupA ((ws.foldl (ingestStep pid) sg).1).wordTab.fw wt.1 = some wid ∧
        stagedIn ((ws.foldl (ingestStep pid) sg).2) wid pid := by
  induction ws with
  | nil => intro sg wt h; simp at h
  | cons wt0 rest ih =>
    intro sg wt hmem
    rw [List.foldl_cons]
    rcases List.mem_cons.mp hmem with hmem | hmem
    · subst hmem
      refine ⟨(getId wt.1 sg.1.wordTab).1, ?_, ?_⟩
      · refine ingestFold_wordTab_mono rest pid _ ?_
        exact getId_mono wt.1 (getId_sound wt.1 sg.1.wordTab)
      · refine ingestFold_staged_mono rest pid _ ?_
        exact stageInsert_self _ _ _
    · exact ih _ wt hmem

theorem UpdateOrAddPage_establishes (doc : Document) (s : Store) (g : Staging) :
    ∃ pid, lookupA (UpdateOrAddPage doc s g).1.urlTab.fw doc.uri = some pid ∧
      ∀ wt ∈ doc.words, ∃ wid,
        lookupA (UpdateOrAddPage doc s g).1.wordTab.fw wt.1 = some wid ∧
        stagedIn (UpdateOrAddPage doc s g).2 wid pid := by
  refine ⟨(getId doc.uri s.urlTab).1, ?_, ?_⟩
  · unfold UpdateOrAddPage
    obtain ⟨hu, -, -⟩ := finishPage_fields doc (getOrCreatePageId doc.uri s).1
      ((doc.words.foldl (ingestStep (getOrCreatePageId doc.uri s).1)
        ((getOrCreatePageId doc.uri s).2, g)).1)
    rw [hu]
    obtain ⟨hu2, -⟩ := ingestFold_fields doc.words (getOrCreatePageId doc.uri s).1
      ((getOrCreatePageId doc.uri s).2, g)
    rw [hu2]
    exact getId_sound doc.uri s.urlTab
  · intro wt hwt
    obtain ⟨wid, hw, hst⟩ := ingestFold_establishes doc.words (getOrCreatePageId doc.uri s).1
      ((getOrCreatePageId doc.uri s).2, g) wt hwt
    refine ⟨wid, ?_, hst⟩
    unfold UpdateOrAddPage
    obtain ⟨-, hw2, -⟩ := finishPage_fields doc (getOrCreatePageId doc.uri s).1
      ((doc.words.foldl (ingestStep (getOrCreatePageId doc.uri s).1)
        ((getOrCreatePageId doc.uri s).2, g)).1)
    rw [hw2]
    exact hw

theorem UpdateOrAddPage_WF (doc : Document) (s : Store) (g : Staging) (hg : StagingWF g) :
    StagingWF (UpdateOrAddPage doc s g).2 :=
  ingestFold_WF doc.words (getOrCreatePageId doc.uri s).1 ((getOrCreatePageId doc.uri s).2, g) hg

theorem FlushInverted_WF (s : Store) (g : Staging) (hg : StagingWF g) :
    StagingWF (FlushInverted s g).2 := by
  obtain ⟨h1, h2, h3⟩ := hg
  have hperm := List.perm_insertionSort (· ≤ ·) g.wordIdList
  refine ⟨hperm.nodup_iff.mpr h1, ?_, ?_⟩
  · intro w hw
    exact h2 w (hperm.subset hw)
  · intro e he
    exact hperm.mem_iff.mpr (h3 e he)

theorem flushFold_other {g : Staging} :
    ∀ (l : List Nat) (tab : List (Nat × List Nat)) {wid : Nat}, wid ∉ l →
      lookupA (l.foldl (fun tab w => flushTaskRun w w g tab) tab) wid = lookupA tab wid := by
  intro l
  induction l with
  | nil => intro tab wid _; rfl
  | cons w' rest ih =>
    intro tab wid hmem
    simp only [List.mem_cons] at hmem
    push_neg at hmem
    rw [List.foldl_cons, ih _ hmem.2]
    unfold flushTaskRun
    exact lookupA_insertA_ne _ _ _ _ hmem.1

theorem flushFold_covers {g : Staging} :
    ∀ (l : List Nat) (tab : List (Nat × List Nat)) {wid : Nat} {ps : List Nat},
      l.Nodup → wid ∈ l → lookupA g.tempInverted wid = some ps →
      ∃ b, lookupA (l.foldl (fun tab w => flushTaskRun w w g tab) tab) wid = some b ∧
        ∀ d ∈ ps, d ∈ b := by
  intro l
  induction l with
  | nil => intro tab wid ps _ h _; simp at h
  | cons w' rest ih =>
    intro tab wid ps hnd hmem hps
    obtain ⟨hnotin, hndrest⟩ := List.nodup_cons.mp hnd
    rw [List.foldl_cons]
    rcases List.mem_cons.mp hmem with hmem | hmem
    · subst hmem
      have hnr : wid ∉ rest := hnotin
      rw [flushFold_other rest _ hnr]
      unfold flushTaskRun
      rw [lookupA_insertA_self, hps]
      refine ⟨_, rfl, ?_⟩
      intro d hd
      exact mem_foldl_insertSet_self _ hd
    · exact ih _ hndrest hmem hps

theorem flushFold_noop {g : Staging} :
    ∀ (l : List Nat) (tab : List (Nat × List Nat)),
      (∀ wid ∈ l, ∃ ps b, lookupA g.tempInverted wid = some ps ∧
        lookupA tab wid = some b ∧ ∀ d ∈ ps, d ∈ b) →
      l.foldl (fun tab w => flushTaskRun w w g tab) tab = tab := by
  intro l
  induction l with
  | nil => intro tab _; rfl
  | cons w' rest ih =>
    intro tab hall
    obtain ⟨ps, b, hps, hb, hsub⟩ := hall w' (by simp)
    have hstep : flushTaskRun w' w' g tab = tab := by
      unfold flushTaskRun
      rw [hps, hb]
      simp only [Option.getD_some]
      rw [foldl_insertSet_eq_of_subset hsub, insertA_eq_of_lookup hb]
    rw [List.foldl_cons, hstep]
    exact ih tab (fun wid hw => hall wid (by simp [hw]))

theorem FlushInverted_Flushed (s : Store) (g : Staging) (hg : StagingWF g) :
    Flushed (FlushInverted s g).1.invertedTable (FlushInverted s g).2.tempInverted := by
  intro wid ps hps
  have hmem : wid ∈ g.wordIdList := hg.2.2 (wid, ps) (lookupA_mem hps)
  have hmemS : wid ∈ List.insertionSort (· ≤ ·) g.wordIdList :=
    (List.perm_insertionSort (· ≤ ·) g.wordIdList).mem_iff.mpr hmem
  have hnd : (List.insertionSort (· ≤ ·) g.wordIdList).Nodup :=
    (List.perm_insertionSort (· ≤ ·) g.wordIdList).nodup_iff.mpr hg.1
  exact flushFold_covers _ s.invertedTable hnd hmemS hps

theorem FlushInverted_noop_inverted (s : Store) (g : Staging) (hg : StagingWF g)
    (hfl : Flushed s.invertedTable g.tempInverted) :
    (FlushInverted s g).1.invertedTable = s.invertedTable := by
  apply flushFold_noop
  intro wid hw
  have hmem : wid ∈ g.wordIdList :=
    (List.perm_insertionSort (· ≤ ·) g.wordIdList).subset hw
  have hsome := hg.2.1 wid hmem
  obtain ⟨ps, hps⟩ : ∃ ps, lookupA g.tempInverted wid = some ps := by
    cases h : lookupA g.tempInverted wid with
    | none => rw [h] at hsome; cases hsome
    | some ps => exact ⟨ps, rfl⟩
  obtain ⟨b, hb, hsub⟩ := hfl wid ps hps
  exact ⟨ps, b, hps, hb, hsub⟩

theorem ingestFold_noop (ws : List (String × Nat)) (pid : Nat) :
    ∀ sg : Store × Staging,
      (∀ wt ∈ ws, ∃ wid, lookupA sg.1.wordTab.fw wt.1 = some wid ∧ stagedIn sg.2 wid pid) →
      (ws.foldl (ingestStep pid) sg).2 = sg.2 ∧
      (ws.foldl (ingestStep pid) sg).1.wordTab = sg.1.wordTab ∧
      (ws.foldl (ingestStep pid) sg).1.invertedTable = sg.1.invertedTable ∧
      (ws.foldl (ingestStep pid) sg).1.urlTab = sg.1.urlTab := by
  induction ws with
  | nil => intro sg _; exact ⟨rfl, rfl, rfl, rfl⟩
  | cons wt rest ih =>
    intro sg hall
    obtain ⟨wid, hwid, hst⟩ := hall wt (by simp)
    have hstep : ingestStep pid sg wt =
        ({ sg.1 with forwardTable := fwPut sg.1.forwardTable pid wid wt.2 }, sg.2) := by
      unfold ingestStep updateInverted updateForward getOrCreateWordId
      rw [getId_found hwid]
      dsimp only
      rw [getId_found hwid]
      dsimp only
      rw [stageInsert_noop hst]
    rw [List.foldl_cons, hstep]
    obtain ⟨h1, h2, h3, h4⟩ := ih
      ({ sg.1 with forwardTable := fwPut sg.1.forwardTable pid wid wt.2 }, sg.2)
      (fun wt2 hwt2 => hall wt2 (by simp [hwt2]))
    exact ⟨h1, h2, h3, h4⟩

theorem UpdateOrAddPage_noop (doc : Document) (s : Store) (g : Staging)
    (hk : ∃ pid, lookupA s.urlTab.fw doc.uri = some pid ∧
      ∀ wt ∈ doc.words, ∃ wid, lookupA s.wordTab.fw wt.1 = some wid ∧ stagedIn g wid pid) :
    (UpdateOrAddPage doc s g).2 = g ∧
    (UpdateOrAddPage doc s g).1.invertedTable = s.invertedTable := by
  obtain ⟨pid, hpid, hall⟩ := hk
  have hgp : getOrCreatePageId doc.uri s = (pid, s) := by
    unfold getOrCreatePageId
    rw [getId_found hpid]
  unfold UpdateOrAddPage
  rw [hgp]
  dsimp only
  obtain ⟨h1, -, h3, -⟩ := ingestFold_noop doc.words pid (s, g) hall
  refine ⟨h1, ?_⟩
  obtain ⟨-, -, hfin⟩ := finishPage_fields doc pid
    ((doc.words.foldl (ingestStep pid) (s, g)).1)
  rw [hfin, h3]

/-! ## Claim C9 -/

/-- Claim C9: re-ingesting an unchanged document via `UpdateOrAddPage` and
flushing again is idempotent with respect to posting lists: the second
round leaves the persisted inverted table entirely unchanged, so in
particular the cardinality of every posting list the document's page id
already belongs to is unchanged (staging is a set, and the flush writes
presence markers by overwriting keys). -/
theorem reingest_idempotent (doc : Document) (s0 : Store) (g0 : Staging)
    (hWF : StagingWF g0) :
    (ingestAndFlush doc (ingestAndFlush doc (s0, g0))).1.invertedTable =
      (ingestAndFlush doc (s0, g0)).1.invertedTable ∧
    ∀ w ps p, lookupA (ingestAndFlush doc (s0, g0)).1.invertedTable w = some ps →
      p ∈ ps →
      ∃ ps', lookupA (ingestAndFlush doc (ingestAndFlush doc (s0, g0))).1.invertedTable w
        = some ps' ∧ ps'.length = ps.length := by
  have hWF1 : StagingWF (UpdateOrAddPage doc s0 g0).2 := UpdateOrAddPage_WF doc s0 g0 hWF
  obtain ⟨pid, hpid, hall⟩ := UpdateOrAddPage_establishes doc s0 g0
  set f1 := ingestAndFlush doc (s0, g0) with hf1
  have hWFf : StagingWF f1.2 := by
    rw [hf1]
    unfold ingestAndFlush
    exact FlushInverted_WF _ _ hWF1
  have hFl : Flushed f1.1.invertedTable f1.2.tempInverted := by
    rw [hf1]
    unfold ingestAndFlush
    exact FlushInverted_Flushed _ _ hWF1
  have hkey : ∃ pid2, lookupA f1.1.urlTab.fw doc.uri = some pid2 ∧
      ∀ wt ∈ doc.words, ∃ wid,
        lookupA f1.1.wordTab.fw wt.1 = some wid ∧ stagedIn f1.2 wid pid2 := by
    refine ⟨pid, hpid, ?_⟩
    intro wt hwt
    obtain ⟨wid, hw, hst⟩ := hall wt hwt
    exact ⟨wid, hw, hst⟩
  obtain ⟨hA2g, hA2inv⟩ := UpdateOrAddPage_noop doc f1.1 f1.2 hkey
  have hg2 : StagingWF (UpdateOrAddPage doc f1.1 f1.2).2 := by
    rw [hA2g]
    exact hWFf
  have hfl2 : Flushed (UpdateOrAddPage doc f1.1 f1.2).1.invertedTable
      (UpdateOrAddPage doc f1.1 f1.2).2.tempInverted := by
    rw [hA2inv, hA2g]
    exact hFl
  have h2nd : (ingestAndFlush doc f1).1.invertedTable = f1.1.invertedTable := by
    show (FlushInverted (UpdateOrAddPage doc f1.1 f1.2).1
        (UpdateOrAddPage doc f1.1 f1.2).2).1.invertedTable = f1.1.invertedTable
    rw [FlushInverted_noop_inverted _ _ hg2 hfl2, hA2inv]
  exact ⟨h2nd, fun w ps p hps _ => ⟨ps, by rw [h2nd]; exact hps, rfl⟩⟩

/-- Witness for C9 at a concrete document from the empty store. -/
theorem reingest_idempotent_witness :
    (ingestAndFlush docA (ingestAndFlush docA (emptyStore, emptyStaging))).1.invertedTable =
      (ingestAndFlush docA (emptyStore, emptyStaging)).1.invertedTable ∧
    ∀ w ps p,
      lookupA (ingestAndFlush docA (emptyStore, emptyStaging)).1.invertedTable w = some ps →
      p ∈ ps →
      ∃ ps', lookupA
          (ingestAndFlush docA (ingestAndFlush docA (emptyStore, emptyStaging))).1.invertedTable
          w = some ps' ∧ ps'.length = ps.length :=
  reingest_idempotent docA emptyStore emptyStaging
    (by refine ⟨?_, ?_, ?_⟩ <;> simp [emptyStaging])

end Comp4321
